import Mathlib

/-
  Verification of the Umbra reverberation engine core against its
  natural-language specification.

  The C++ sources are shallowly embedded: 32-bit float samples are modelled
  by exact arithmetic (a commutative ring `α`, instantiated at `ℚ` or `ℝ`),
  `std::vector<float>` backing stores by total functions `ℕ → α` that are
  zero outside the allocated range (matching `resize(_, 0.0f)`), and C++
  exceptions by `Except String`.
-/

set_option linter.unusedSectionVars false

variable {α : Type} [CommRing α]

/-! ## DelayLine (src/source/reverb/DelayLine.cpp) -/

/-- The wrap-around step `if (read < 0) read += bufferSize;` used by
`readSample` and `readBlock`. -/
def wrapNeg (bufferSize : ℕ) (read : ℤ) : ℤ :=
  if read < 0 then read + bufferSize else read

/-- Circular delay line (class `DelayLine`).  The C++ object owns a
`std::vector<float> buffer` of length `2 * bufferSize` (two mirrored copies),
a write cursor `write`, the maximum delay `M` and a feedback gain `g`. -/
structure DelayLine (α : Type) where
  M : ℕ
  g : α
  bufferSize : ℕ
  buffer : ℕ → α
  write : ℕ

/-- Constructor `DelayLine::DelayLine(int M, float g, int maxBlockSize)` after its
validation (`throw` on `M < 0 || maxBlockSize <= 0`, captured here by the `ℕ`
types and the caller-side hypothesis `0 < maxBlockSize`): sets
`bufferSize = M + maxBlockSize`, zero-fills the mirrored buffer
(`buffer.resize(2 * bufferSize, 0.0f)`) and starts the cursor at 0. -/
def DelayLine.mk' (M : ℕ) (g : α) (maxBlockSize : ℕ) : DelayLine α :=
  { M := M, g := g, bufferSize := M + maxBlockSize, buffer := fun _ => 0, write := 0 }

/-- Embeds `DelayLine::readSample(const int tau)`:
throws `std::out_of_range` when `tau > M || tau < 0`, otherwise reads
`buffer[read]` where `read = write - tau - 1`, wrapped by `+= bufferSize`
when negative. -/
def DelayLine.readSample (d : DelayLine α) (tau : ℤ) : Except String α :=
  if tau > (d.M : ℤ) ∨ tau < 0 then .error "Tau exceeds maximum delay"
  else .ok (d.buffer (wrapNeg d.bufferSize ((d.write : ℤ) - tau - 1)).toNat)

/-- Embeds `DelayLine::readSample()` — the overload reading at the maximum delay `M`. -/
def DelayLine.readSampleMax (d : DelayLine α) : Except String α :=
  d.readSample d.M

/-- Embeds `DelayLine::writeSample(const float input)`: stores the sample at `write`
and at the mirror position `write + bufferSize`, then advances the cursor
circularly. -/
def DelayLine.writeSample (d : DelayLine α) (x : α) : DelayLine α :=
  { d with
    buffer := Function.update (Function.update d.buffer d.write x)
      (d.write + d.bufferSize) x
    write := (d.write + 1) % d.bufferSize }

/-- A sequence of `writeSample` calls, one per element. -/
def DelayLine.writeSeq (d : DelayLine α) (xs : List α) : DelayLine α :=
  xs.foldl DelayLine.writeSample d

/-- Models `std::memcpy(&buffer[dst], src, n * sizeof(float))` on the flat
backing store: positions `dst ≤ i < dst + src.length` receive the
corresponding source sample, all others keep their old value. -/
def memcpyAt (buf : ℕ → α) (dst : ℕ) (src : List α) : ℕ → α :=
  fun i => if dst ≤ i ∧ i < dst + src.length then src.getD (i - dst) 0 else buf i

/-- Embeds `DelayLine::writeBlock(const float* input, const int blockSize)`:
returns silently on a null/empty block, copies contiguously (plus mirror)
when `write + blockSize <= bufferSize`, otherwise performs the wrap-around
copy in two parts (each also mirrored), and finally advances the cursor
circularly.  The function performs no capacity validation. -/
def DelayLine.writeBlock (d : DelayLine α) (input : List α) : DelayLine α :=
  let blockSize := input.length
  if blockSize = 0 then d
  else if d.write + blockSize ≤ d.bufferSize then
    { d with
      buffer := memcpyAt (memcpyAt d.buffer d.write input)
        (d.write + d.bufferSize) input
      write := (d.write + blockSize) % d.bufferSize }
  else
    let firstPart := d.bufferSize - d.write
    { d with
      buffer :=
        memcpyAt (memcpyAt (memcpyAt (memcpyAt d.buffer
          d.write (input.take firstPart))
          0 (input.drop firstPart))
          (d.write + d.bufferSize) (input.take firstPart))
          d.bufferSize (input.drop firstPart)
      write := (d.write + blockSize) % d.bufferSize }

/-- Embeds `DelayLine::readBlock(const int tau, const int blockSize)`:
throws `std::out_of_range` when `tau` is outside `[0, M]` or when
`blockSize <= 0 || blockSize > bufferSize - tau`; otherwise returns the
contiguous span of `blockSize` samples starting at
`read = write - tau - blockSize` (wrapped by `+= bufferSize` when negative),
taken from the mirrored backing store. -/
def DelayLine.readBlock (d : DelayLine α) (tau blockSize : ℤ) :
    Except String (List α) :=
  if tau < 0 ∨ tau > (d.M : ℤ) then .error "Tau exceeds maximum delay"
  else if blockSize ≤ 0 ∨ blockSize > (d.bufferSize : ℤ) - tau then
    .error "Block size out of bounds"
  else
    .ok ((List.range blockSize.toNat).map fun t =>
      d.buffer ((wrapNeg d.bufferSize ((d.write : ℤ) - tau - blockSize)).toNat + t))

/-- Well-formedness of a delay-line state, as established by the constructor
and preserved by every write: the cursor is in range, the maximum delay is
strictly below the buffer size (`bufferSize = M + maxBlockSize` with
`maxBlockSize > 0`), and the second copy of the buffer mirrors the first. -/
def DelayLine.WF (d : DelayLine α) : Prop :=
  d.write < d.bufferSize ∧ d.M < d.bufferSize ∧
    ∀ i < d.bufferSize, d.buffer (i + d.bufferSize) = d.buffer i

/-! ## RRSFilter (src/Source/RRSFilter.cpp) -/

/-- Recursive running-sum filter (class `RRSFilter`): two delay lines
(`z_M` of length `M` for the delayed input, `z_1` of length 1 for the
previous output), the leakage `epsilon` and the precomputed
`epsilonM = (1 - epsilon)^M`. -/
structure RRSFilter (α : Type) where
  z_M : DelayLine α
  z_1 : DelayLine α
  epsilon : α
  epsilonM : α
  M : ℕ

/-- Constructor `RRSFilter::RRSFilter(int M, double epsilon_, int maxBlockSize)`. -/
def RRSFilter.mk' (M : ℕ) (epsilon : α) (maxBlockSize : ℕ) : RRSFilter α :=
  { z_M := DelayLine.mk' M 0 maxBlockSize
    z_1 := DelayLine.mk' 1 0 maxBlockSize
    epsilon := epsilon
    epsilonM := (1 - epsilon) ^ M
    M := M }

/-- One iteration of the loop body of `RRSFilter::process`: read
`x_M = z_M.readSample()` and `y_1 = z_1.readSample()` (both the no-argument
overload, i.e. delay `M` resp. delay `1`), compute
`y = (x - epsilonM * x_M) + (1 - epsilon) * y_1`, then write `x` into `z_M`
and `y` into `z_1`. -/
def RRSFilter.processSample (f : RRSFilter α) (x : α) :
    Except String (α × RRSFilter α) := do
  let x_M ← f.z_M.readSampleMax
  let y_1 ← f.z_1.readSampleMax
  let y := (x - f.epsilonM * x_M) + (1 - f.epsilon) * y_1
  pure (y, { f with z_M := f.z_M.writeSample x, z_1 := f.z_1.writeSample y })

/-- Embeds `RRSFilter::process(float* block, int blockSize)`: the per-sample loop,
writing each output in place. -/
def RRSFilter.process (f : RRSFilter α) (block : List α) :
    Except String (List α × RRSFilter α) :=
  match block with
  | [] => pure ([], f)
  | x :: rest => do
    let r ← f.processSample x
    let rest2 ← r.2.process rest
    pure (r.1 :: rest2.1, rest2.2)

/-- Modelled from the spec: the output sequence demanded by the claimed
recursion `y[n] = (1-ε)·y[n-1] + x[n] - (1-ε)^M · x[n-M]`, where `y[n-1]`
is the immediately previous output, `x[n-M]` the input `M` samples earlier,
and all state is initially zero (`y[k] = x[k] = 0` for `k < 0`).  This is a
reference definition built from the specification's words, to be compared
against `RRSFilter.process`. -/
def rrsSpecList (M : ℕ) (epsilon : α) (xs : List α) : List α :=
  (List.range xs.length).foldl
    (fun ys n =>
      ys ++ [(1 - epsilon) * (if n = 0 then 0 else ys.getD (n - 1) 0)
        + xs.getD n 0
        - (1 - epsilon) ^ M * (if M ≤ n then xs.getD (n - M) 0 else 0)])
    []

/-! ## Hadamard (Hadamard.h / Hadamard.cpp) -/

/-- One stage of the in-place fast Hadamard transform with half-block length
`len` (the two inner loops `for i ... i += len << 1`, `for j < len`): each
position `p` in a first half (`(p / len) % 2 = 0`, i.e. `p = i + j`) becomes
`a + b`, each second-half position (`p = i + j + len`) becomes `a - b`, where
`a`/`b` are the pre-stage values of the pair `(p, p + len)` resp.
`(p - len, p)`.  Frames are modelled as functions `ℕ → ℝ`; the transform is
only ever read below the frame length. -/
def hadamardStage (len : ℕ) (v : ℕ → ℝ) : ℕ → ℝ :=
  fun p =>
    if (p / len) % 2 = 0 then v p + v (p + len) else v (p - len) - v p

/-- The full stage loop `for (len = 1; len < N; len <<= 1)` for a frame of
`N = 2^k` values: half-block lengths `2^0, …, 2^(k-1)`. -/
def fht (k : ℕ) (v : ℕ → ℝ) : ℕ → ℝ :=
  (List.range k).foldl (fun w s => hadamardStage (2 ^ s) w) v

/-- The per-frame work of `Hadamard::process`: run the stages, then scale
every value by `1 / std::sqrt(N)`. -/
noncomputable def hadamardFrame (N : ℕ) (frame : List ℝ) : List ℝ :=
  (List.range N).map fun p =>
    (Real.sqrt N)⁻¹ * fht (Nat.log2 N) (fun i => frame.getD i 0) p

/-- Embeds `Hadamard::process(std::vector<float>&)`: if `N & (N - 1) != 0` (size not
a power of two) the function silently returns, leaving the frame unchanged;
otherwise it transforms and normalises in place. -/
noncomputable def Hadamard.processVec (frame : List ℝ) : List ℝ :=
  if frame.length &&& (frame.length - 1) ≠ 0 then frame
  else hadamardFrame frame.length frame

/-- Embeds `Hadamard::process(juce::AudioBuffer<float>&)`: throws
`std::invalid_argument` when the channel count is not a power of two
(`(numChannels & (numChannels - 1)) != 0`), otherwise transforms each sample
frame across channels.  The buffer is modelled as the list of its per-sample
frames. -/
noncomputable def Hadamard.processBuffer (numChannels : ℕ)
    (frames : List (List ℝ)) : Except String (List (List ℝ)) :=
  if numChannels &&& (numChannels - 1) ≠ 0 then
    .error "Number of channels must be a power of 2."
  else .ok (frames.map (hadamardFrame numChannels))

/-! ## FDN (src/Source/FDN.cpp) -/

/-- Coefficients of one `juce::dsp::IIR` biquad (the damping low-pass),
already normalised by `a0`.  `juce` is an external collaborator; the
coefficient formula of `makeLowPass` is kept abstract (a parameter `mkLP`
below), only the filter state machine is modelled. -/
structure BiquadCoeffs where
  b0 : ℝ
  b1 : ℝ
  b2 : ℝ
  a1 : ℝ
  a2 : ℝ

/-- One `juce::dsp::IIR::Filter<float>`: coefficients plus the two state
variables of the transposed direct-form-II biquad. -/
structure Biquad where
  coeffs : BiquadCoeffs
  s1 : ℝ
  s2 : ℝ

/-- Embeds `juce::dsp::IIR::Filter<float>::processSample`. -/
def Biquad.processSample (f : Biquad) (x : ℝ) : ℝ × Biquad :=
  let y := f.coeffs.b0 * x + f.s1
  (y, { f with
    s1 := f.coeffs.b1 * x - f.coeffs.a1 * y + f.s2
    s2 := f.coeffs.b2 * x - f.coeffs.a2 * y })

/-- The state owned by class `FDN`: delay lengths `M`, feedback gains `g`,
delay lines `z`, damping filters `H` (the channel count `N` is `z.size()`,
as read back in `FDN::process`). -/
structure FDNState where
  M : List ℕ
  g : List ℝ
  z : List (DelayLine ℝ)
  H : List Biquad

/-- Step 5 of the per-sample loop of `FDN::process`:
`outputFrame[ch] = inputFrame[ch] + g[ch] * H[ch].processSample(outputFrame[ch])`
for every channel, returning the new frame and the updated filter states. -/
def FDN.feedback : List Biquad → List ℝ → List ℝ → List ℝ →
    List ℝ × List Biquad
  | h :: Hs, gch :: gs, x :: xs, mx :: ms =>
    let r := h.processSample mx
    let rest := FDN.feedback Hs gs xs ms
    ((x + gch * r.1) :: rest.1, r.2 :: rest.2)
  | _, _, _, _ => ([], [])

/-- One iteration of the per-sample loop of `FDN::process` (steps 1-6):
capture the input frame, read every delay line at the scaled index
`static_cast<int>(M[ch] * roomSize)`, emit the pre-mix delayed outputs as
this sample's output, mix them with the Hadamard transform, apply damping
filter and feedback gain plus the input, and write the results back into
the delay lines. -/
noncomputable def FDN.processFrame (roomSize : ℝ) (st : FDNState)
    (frame : List ℝ) : Except String (List ℝ × FDNState) := do
  let inputFrame := (List.range st.z.length).map fun ch => frame.getD ch 0
  let outputFrame ← (st.z.zip st.M).mapM fun zM =>
    zM.1.readSample ⌊(zM.2 : ℝ) * roomSize⌋
  let mixed := Hadamard.processVec outputFrame
  let fb := FDN.feedback st.H st.g inputFrame mixed
  pure (outputFrame,
    { st with z := List.zipWith DelayLine.writeSample st.z fb.1, H := fb.2 })

/-- The sample loop of `FDN::process` over a whole block (the audio buffer
is modelled as the list of its per-sample frames). -/
noncomputable def FDN.processSamples (roomSize : ℝ) (st : FDNState) :
    List (List ℝ) → Except String (List (List ℝ) × FDNState)
  | [] => pure ([], st)
  | f :: rest => do
    let r1 ← FDN.processFrame roomSize st f
    let r2 ← FDN.processSamples roomSize r1.2 rest
    pure (r1.1 :: r2.1, r2.2)

/-- The coefficient-update loop at the top of `FDN::process`:
`H[ch].coefficients = makeLowPass(fs, dampening)` for every channel,
unconditionally.  The second component counts the `makeLowPass`
computations performed (one per filter, every call). -/
def FDN.updateCoeffs (mkLP : ℝ → ℝ → BiquadCoeffs) (fs dampening : ℝ)
    (H : List Biquad) : List Biquad × ℕ :=
  (H.map fun h => { h with coeffs := mkLP fs dampening }, H.length)

/-- Embeds `FDN::process(buffer, dampening, fs, roomSize)`: update the damping
coefficients, then run the per-sample loop.  The first component is the
number of coefficient computations the call performed. -/
noncomputable def FDN.process (mkLP : ℝ → ℝ → BiquadCoeffs) (st : FDNState)
    (frames : List (List ℝ)) (dampening fs roomSize : ℝ) :
    ℕ × Except String (List (List ℝ) × FDNState) :=
  ((FDN.updateCoeffs mkLP fs dampening st.H).2,
    FDN.processSamples roomSize
      { st with H := (FDN.updateCoeffs mkLP fs dampening st.H).1 } frames)

/-- The sample a zero-feedback FDN line contributes: the value written
`int(M[ch]·roomSize)` steps ago into that line's history, or zero while the
history is still shorter. -/
noncomputable def fdnTap (roomSize : ℝ) (M : List ℕ) (xs : List ℝ)
    (ch : ℕ) : ℝ :=
  if (⌊(M.getD ch 0 : ℝ) * roomSize⌋).toNat < xs.length
  then xs.getD (xs.length - 1 - (⌊(M.getD ch 0 : ℝ) * roomSize⌋).toNat) 0
  else 0

def mkLP0 : ℝ → ℝ → BiquadCoeffs := fun _ _ => ⟨1, 0, 0, 0, 0⟩

/-- A one-line FDN in its freshly constructed shape: the dummy line 0
(`DelayLine(0, 0.0f, blockSize)`), delay length `M[0] = 0`, with its
feedback gain forced to 0 as the claim demands. -/
def fdnSt0 : FDNState :=
  ⟨[0], [0], [DelayLine.mk' 0 0 4], [⟨⟨1, 0, 0, 0, 0⟩, 0, 0⟩]⟩

/-- A one-line FDN whose stored damping coefficients already equal
`makeLowPass(44100, 8000)` — the state after a previous block processed
with dampening 8000. -/
def fdnStPrev : FDNState :=
  ⟨[0], [0], [DelayLine.mk' 0 0 4], [⟨mkLP0 44100 8000, 0, 0⟩]⟩

/-! ## DVNConvolver (DVNConvolver.cpp) -/

/-- The pulse generation loop of `DVNConvolver::DVNConvolver`: for each of
the `M` pulses, three uniform draws give the width
`w[m] = round(r1*(wmax - wmin) + wmin)`, the position
`k[m] = round(m*Td + r2*(Td - w[m]))` and the sign
`s[m] = 2*round(r3) - 1`.  The random stream `rs` models the successive
`rng.nextFloat()` triples; each generated pulse is `(k, w, s)`. -/
noncomputable def DVNConvolver.pulses (M : ℕ) (Td wmin wmax : ℤ)
    (rs : ℕ → ℝ × ℝ × ℝ) : List (ℤ × ℤ × ℤ) :=
  (List.range M).map fun m =>
    let w : ℤ := round ((rs m).1 * ((wmax : ℝ) - wmin) + wmin)
    let k : ℤ := round ((m : ℝ) * Td + (rs m).2.1 * ((Td : ℝ) - w))
    let s : ℤ := 2 * round (rs m).2.2 - 1
    (k, w, s)

/-- Models `*std::max_element(first, last)`: on an empty range
`max_element` returns `last`, and dereferencing it is undefined behaviour —
marked here by `none`. -/
def maxElement {β : Type} [LinearOrder β] (l : List β) : Option β :=
  l.max?

/-- The base of the output normalisation of `DVNConvolver::process`:
`float(M * (wmax - wmin + 1))`, whose `19/30` power divides the output. -/
def DVNConvolver.normBase (M wmin wmax : ℤ) : ℤ :=
  M * (wmax - wmin + 1)

/-! ## Reverb (src/Source/Reverb.cpp) -/

/-- The tone-filter collections are created with exactly 2 entries
(`lowPassFilters.resize(2); highPassFilters.resize(2)` in the
constructor) and are never resized afterwards. -/
def Reverb.numToneFilters : ℕ := 2

/-- The indices at which `Reverb::process` accesses `lowPassFilters` and
`highPassFilters`: the low-pass update loop (when the cutoff changed), the
high-pass update loop (when the cutoff changed), and the unconditional
filter-application loop all run `for (ch = 0; ch < numChannels; ++ch)` and
index `...Filters[ch]`. -/
def Reverb.toneFilterAccessIndices (numChannels : ℕ)
    (lowPassChanged highPassChanged : Bool) : List ℕ :=
  (if lowPassChanged then List.range numChannels else [])
    ++ (if highPassChanged then List.range numChannels else [])
    ++ List.range numChannels

/-! ## Properties -/
theorem DelayLine.WF.mk' (M : ℕ) (g : α) (maxBlockSize : ℕ)
    (h : 0 < maxBlockSize) : (DelayLine.mk' M g maxBlockSize).WF := by
  refine ⟨by simp [DelayLine.mk']; omega, by simp [DelayLine.mk']; omega, ?_⟩
  intro i _
  simp [DelayLine.mk']

theorem DelayLine.WF.pos {d : DelayLine α} (h : d.WF) : 0 < d.bufferSize :=
  lt_of_le_of_lt (Nat.zero_le _) h.1

theorem DelayLine.WF.writeSample {d : DelayLine α} (h : d.WF) (x : α) :
    (d.writeSample x).WF := by
  obtain ⟨hw, hM, hmir⟩ := h
  refine ⟨Nat.mod_lt _ (by omega), hM, ?_⟩
  intro i hi
  have hi' : i < d.bufferSize := hi
  simp only [DelayLine.writeSample]
  rcases eq_or_ne i d.write with rfl | hne
  · rw [Function.update_same,
      Function.update_noteq (a := d.write) (by omega), Function.update_same]
  · rw [Function.update_noteq (a := i + d.bufferSize) (by omega),
      Function.update_noteq (a := i + d.bufferSize) (by omega),
      Function.update_noteq (a := i) (by omega),
      Function.update_noteq (a := i) hne]
    exact hmir i hi

theorem DelayLine.WF.writeSeq {d : DelayLine α} (h : d.WF) (xs : List α) :
    (d.writeSeq xs).WF := by
  induction xs generalizing d with
  | nil => exact h
  | cons x xs ih => exact ih (h.writeSample x)

@[simp] theorem DelayLine.writeSample_M (d : DelayLine α) (x : α) :
    (d.writeSample x).M = d.M := rfl

@[simp] theorem DelayLine.writeSample_bufferSize (d : DelayLine α) (x : α) :
    (d.writeSample x).bufferSize = d.bufferSize := rfl

@[simp] theorem DelayLine.writeSeq_M (d : DelayLine α) (xs : List α) :
    (d.writeSeq xs).M = d.M := by
  induction xs generalizing d with
  | nil => rfl
  | cons x xs ih => exact ih (d.writeSample x)

@[simp] theorem DelayLine.writeSeq_bufferSize (d : DelayLine α) (xs : List α) :
    (d.writeSeq xs).bufferSize = d.bufferSize := by
  induction xs generalizing d with
  | nil => rfl
  | cons x xs ih => exact ih (d.writeSample x)

/-- In-range reads take the value at `(write + bufferSize - (tau + 1)) % bufferSize`. -/
theorem DelayLine.readSample_eq_idx (d : DelayLine α) (h : d.WF) (tau : ℕ)
    (hτ : tau ≤ d.M) :
    d.readSample tau =
      .ok (d.buffer ((d.write + d.bufferSize - (tau + 1)) % d.bufferSize)) := by
  obtain ⟨hw, hM, -⟩ := h
  rw [DelayLine.readSample, if_neg (by push_neg; constructor <;> omega)]
  congr 2
  rw [wrapNeg]
  rcases Nat.lt_or_ge d.write (tau + 1) with hlt | hge
  · rw [if_pos (by omega)]
    have h1 : ((d.write : ℤ) - tau - 1 + d.bufferSize).toNat
        = d.write + d.bufferSize - (tau + 1) := by omega
    rw [h1, Nat.mod_eq_of_lt (by omega)]
  · rw [if_neg (by omega)]
    have h1 : ((d.write : ℤ) - tau - 1).toNat = d.write - (tau + 1) := by omega
    rw [h1]
    have h2 : d.write + d.bufferSize - (tau + 1)
        = (d.write - (tau + 1)) + d.bufferSize := by omega
    rw [h2, Nat.add_mod_right, Nat.mod_eq_of_lt (by omega)]

/-- Reading delay 0 right after a single-sample write returns that sample. -/
theorem DelayLine.readSample_writeSample_zero (d : DelayLine α) (h : d.WF)
    (x : α) : (d.writeSample x).readSample 0 = .ok x := by
  have hWF' := h.writeSample x
  rw [show (0 : ℤ) = ((0 : ℕ) : ℤ) by norm_num,
    DelayLine.readSample_eq_idx _ hWF' 0 (Nat.zero_le _)]
  obtain ⟨hw, hM, -⟩ := h
  simp only [DelayLine.writeSample]
  have hidx : ((d.write + 1) % d.bufferSize + d.bufferSize - (0 + 1))
      % d.bufferSize = d.write := by
    rcases Nat.lt_or_ge (d.write + 1) d.bufferSize with hlt | hge
    · rw [Nat.mod_eq_of_lt hlt]
      have e : d.write + 1 + d.bufferSize - (0 + 1)
          = d.write + d.bufferSize := by omega
      rw [e, Nat.add_mod_right, Nat.mod_eq_of_lt hw]
    · have hwB : d.write + 1 = d.bufferSize := by omega
      rw [hwB, Nat.mod_self]
      have e : 0 + d.bufferSize - (0 + 1) = d.write := by omega
      rw [e, Nat.mod_eq_of_lt hw]
  rw [hidx, Function.update_noteq (a := d.write) (by omega),
    Function.update_same]

/-- Reading a positive delay after a single-sample write shifts the delay by
one on the previous state. -/
theorem DelayLine.readSample_writeSample_succ (d : DelayLine α) (h : d.WF)
    (x : α) (tau : ℕ) (h1 : 1 ≤ tau) (hτ : tau ≤ d.M) :
    (d.writeSample x).readSample tau = d.readSample (tau - 1 : ℕ) := by
  have hWF' := h.writeSample x
  rw [DelayLine.readSample_eq_idx _ hWF' tau (by simpa using hτ),
    DelayLine.readSample_eq_idx _ h (tau - 1) (by omega)]
  obtain ⟨hw, hM, -⟩ := h
  simp only [DelayLine.writeSample]
  have hidx : ((d.write + 1) % d.bufferSize + d.bufferSize - (tau + 1))
      % d.bufferSize
      = (d.write + d.bufferSize - (tau - 1 + 1)) % d.bufferSize := by
    rcases Nat.lt_or_ge (d.write + 1) d.bufferSize with hlt | hge
    · rw [Nat.mod_eq_of_lt hlt]
      have : d.write + 1 + d.bufferSize - (tau + 1)
          = d.write + d.bufferSize - (tau - 1 + 1) := by omega
      rw [this]
    · have hwB : d.write + 1 = d.bufferSize := by omega
      rw [hwB, Nat.mod_self]
      have e1 : 0 + d.bufferSize - (tau + 1)
          = d.bufferSize - tau - 1 := by omega
      have e2 : d.write + d.bufferSize - (tau - 1 + 1)
          = (d.bufferSize - tau - 1) + d.bufferSize := by omega
      rw [e1, e2, Nat.add_mod_right]
  rw [hidx]
  congr 1
  set p := (d.write + d.bufferSize - (tau - 1 + 1)) % d.bufferSize with hp
  have hplt : p < d.bufferSize := Nat.mod_lt _ (by omega)
  have hpne : p ≠ d.write := by
    rcases Nat.lt_or_ge d.write tau with hlt | hge
    · have : p = d.write + d.bufferSize - tau := by
        rw [hp, Nat.mod_eq_of_lt (by omega)]
        omega
      omega
    · have : p = d.write - tau := by
        rw [hp]
        have e : d.write + d.bufferSize - (tau - 1 + 1)
            = (d.write - tau) + d.bufferSize := by omega
        rw [e, Nat.add_mod_right]
        exact Nat.mod_eq_of_lt (by omega)
      omega
  rw [Function.update_noteq (by omega), Function.update_noteq hpne]

/-- Reading a delay not smaller than the number of samples written reaches
back into the pre-existing state. -/
theorem DelayLine.readSample_writeSeq_old (d : DelayLine α) (h : d.WF)
    (xs : List α) (tau : ℕ) (hτ : tau ≤ d.M) (hn : xs.length ≤ tau) :
    (d.writeSeq xs).readSample tau = d.readSample (tau - xs.length : ℕ) := by
  induction xs generalizing d tau with
  | nil => simp [DelayLine.writeSeq]
  | cons x xs ih =>
    have hstep : (d.writeSeq (x :: xs)) = ((d.writeSample x).writeSeq xs) := rfl
    have h1 : 1 ≤ tau - xs.length := by simp at hn; omega
    have e : (tau - (x :: xs).length : ℕ) = (tau - xs.length) - 1 := by
      simp; omega
    rw [hstep, ih (d.writeSample x) (h.writeSample x) tau (by simpa using hτ)
      (by simp at hn ⊢; omega),
      DelayLine.readSample_writeSample_succ d h x (tau - xs.length)
        h1 (by omega), e]

/-- Round-trip law: after writing `xs` one sample at a time, `readSample tau`
returns the sample written `tau` steps earlier. -/
theorem DelayLine.readSample_writeSeq (d : DelayLine α) (h : d.WF)
    (xs : List α) (tau : ℕ) (hτ : tau ≤ d.M) (hn : tau < xs.length) :
    (d.writeSeq xs).readSample tau = .ok (xs.getD (xs.length - 1 - tau) 0) := by
  induction xs generalizing d tau with
  | nil => simp at hn
  | cons x xs ih =>
    have hstep : (d.writeSeq (x :: xs)) = ((d.writeSample x).writeSeq xs) := rfl
    rw [hstep]
    rcases Nat.lt_or_ge tau xs.length with hlt | hge
    · rw [ih (d.writeSample x) (h.writeSample x) tau (by simpa using hτ) hlt]
      congr 1
      have e : (x :: xs).length - 1 - tau = (xs.length - 1 - tau) + 1 := by
        simp; omega
      rw [e]
      simp
    · have hτx : tau = xs.length := by simp at hn; omega
      subst hτx
      rw [DelayLine.readSample_writeSeq_old (d.writeSample x)
        (h.writeSample x) xs xs.length (by simpa using hτ) le_rfl]
      have e0 : (xs.length - xs.length : ℕ) = 0 := by omega
      have e1 : (x :: xs).length - 1 - xs.length = 0 := by simp
      rw [e0, e1]
      simpa using DelayLine.readSample_writeSample_zero d h x

@[simp] theorem DelayLine.writeBlock_M (d : DelayLine α) (input : List α) :
    (d.writeBlock input).M = d.M := by
  rw [DelayLine.writeBlock]
  split_ifs <;> rfl

@[simp] theorem DelayLine.writeBlock_bufferSize (d : DelayLine α)
    (input : List α) : (d.writeBlock input).bufferSize = d.bufferSize := by
  rw [DelayLine.writeBlock]
  split_ifs <;> rfl

theorem DelayLine.writeBlock_write (d : DelayLine α) (input : List α)
    (h : input ≠ []) :
    (d.writeBlock input).write = (d.write + input.length) % d.bufferSize := by
  rw [DelayLine.writeBlock]
  split_ifs with h0 h1
  · exact absurd (List.length_eq_zero.mp h0) h
  · rfl
  · rfl

/-- The sample written as block element `t` lands at flat position
`write + t` (covering the mirror region when the write wraps). -/
theorem DelayLine.writeBlock_buffer_at (d : DelayLine α) (hWF : d.WF)
    (input : List α) (hle : input.length ≤ d.bufferSize) (t : ℕ)
    (ht : t < input.length) :
    (d.writeBlock input).buffer (d.write + t) = input.getD t 0 := by
  obtain ⟨hw, hM, -⟩ := hWF
  rw [DelayLine.writeBlock]
  split_ifs with h0 h1
  · omega
  · -- contiguous copy: position write + t is inside the first memcpy span
    simp only [memcpyAt]
    rw [if_neg (by omega), if_pos (by omega)]
    simp
  · -- wrap-around copy
    simp only [memcpyAt, List.length_take, List.length_drop]
    rcases Nat.lt_or_ge t (d.bufferSize - d.write) with hfp | hfp
    · -- first part: main-buffer span [write, bufferSize)
      rw [if_neg (by omega), if_neg (by omega), if_neg (by omega),
        if_pos (by omega)]
      have := List.getElem?_take_of_lt (l := input)
        (n := d.bufferSize - d.write) (m := t) hfp
      simp [List.getD, this]
    · -- second part: mirrored span [bufferSize, bufferSize + secondPart)
      rw [if_pos (by omega)]
      have hidx : d.write + t - d.bufferSize
          = t - (d.bufferSize - d.write) := by omega
      rw [hidx]
      have := List.getElem?_drop input (d.bufferSize - d.write)
        (t - (d.bufferSize - d.write))
      have harg : d.bufferSize - d.write + (t - (d.bufferSize - d.write))
          = t := by omega
      rw [harg] at this
      simp [List.getD, this]

/-- Reading positions `0 ≤ p < l.length` with default 0 reconstructs the list. -/
theorem List.map_range_getD {β : Type} [Zero β] (l : List β) :
    (List.range l.length).map (fun p => l.getD p 0) = l := by
  apply List.ext_getElem (by simp)
  intro i h1 h2
  simp [List.getD_eq_getElem?_getD, List.getElem?_eq_getElem h2]

/-- Writing a block then reading it back at `tau = 0` returns the block just written,
whether or not the write wrapped around the end of the circular buffer. -/
theorem DelayLine.readBlock_writeBlock (d : DelayLine α) (hWF : d.WF)
    (input : List α) (h0 : 0 < input.length)
    (hle : input.length ≤ d.bufferSize) :
    (d.writeBlock input).readBlock 0 input.length = .ok input := by
  have hne : input ≠ [] := by
    intro h
    rw [h] at h0
    simp at h0
  obtain ⟨hw, hM, hmir⟩ := hWF
  rw [DelayLine.readBlock]
  rw [if_neg (by push_neg; constructor <;> simp), if_neg (by push_neg; simp; omega)]
  have hidx : (wrapNeg (d.writeBlock input).bufferSize
      (((d.writeBlock input).write : ℤ) - 0 - input.length)).toNat = d.write := by
    rw [DelayLine.writeBlock_bufferSize, DelayLine.writeBlock_write d input hne,
      wrapNeg]
    rcases Nat.lt_or_ge (d.write + input.length) d.bufferSize with hlt | hge
    · rw [Nat.mod_eq_of_lt hlt, if_neg (by push_neg; omega)]
      omega
    · have hmod : (d.write + input.length) % d.bufferSize
          = d.write + input.length - d.bufferSize := by
        rw [Nat.mod_eq_sub_mod (by omega), Nat.mod_eq_of_lt (by omega)]
      rw [hmod, if_pos (by omega)]
      omega
  simp only [hidx]
  have hlen : (input.length : ℤ).toNat = input.length := by omega
  rw [hlen]
  congr 1
  have hcopy : ∀ t < input.length,
      (d.writeBlock input).buffer (d.write + t) = input.getD t 0 :=
    fun t ht => DelayLine.writeBlock_buffer_at d ⟨hw, hM, hmir⟩ input hle t ht
  calc (List.range input.length).map
        (fun t => (d.writeBlock input).buffer (d.write + t))
      = (List.range input.length).map (fun t => input.getD t 0) := by
        apply List.map_congr_left
        intro t ht
        exact hcopy t (List.mem_range.mp ht)
    _ = input := List.map_range_getD input

/-- C4: for every (well-formed) delay line with maximum delay `M` and every
`tau ∈ [0, M]`, after writing a sequence of at least `tau + 1` samples one
at a time, `readSample(tau)` returns exactly the sample written `tau` steps
earlier (`readSample(0)` the last sample written, `readSample(1)` the one
before it, and so on). -/
theorem C4_readSample_roundTrip (d : DelayLine ℚ) (hWF : d.WF)
    (xs : List ℚ) (tau : ℕ) (hτ : tau ≤ d.M)
    (hn : tau + 1 ≤ xs.length) :
    (d.writeSeq xs).readSample tau
      = .ok (xs.getD (xs.length - 1 - tau) 0) :=
  DelayLine.readSample_writeSeq d hWF xs tau hτ (by omega)

theorem C4_readSample_roundTrip_witness :
    ((DelayLine.mk' 2 (0 : ℚ) 2).writeSeq [10, 20, 30]).readSample 1
      = .ok 20 := by
  have h := C4_readSample_roundTrip (DelayLine.mk' 2 (0 : ℚ) 2)
    (DelayLine.WF.mk' 2 0 2 (by norm_num)) [10, 20, 30] 1
    (by decide) (by norm_num)
  simpa using h

/-- C5: `writeBlock` with a block of length `0 < n ≤ bufferSize` followed by
`readBlock(0, n)` yields exactly the block just written, including when the
write straddles the circular wrap point. -/
theorem C5_writeBlock_readBlock_roundTrip (d : DelayLine ℚ) (hWF : d.WF)
    (input : List ℚ) (h0 : 0 < input.length)
    (hle : input.length ≤ d.bufferSize) :
    (d.writeBlock input).readBlock 0 input.length = .ok input :=
  DelayLine.readBlock_writeBlock d hWF input h0 hle

theorem C5_writeBlock_readBlock_roundTrip_witness :
    (((DelayLine.mk' 1 (0 : ℚ) 2).writeBlock [1, 2]).writeBlock
        [3, 4]).readBlock 0 2 = .ok [3, 4] := by
  have hWF : ((DelayLine.mk' 1 (0 : ℚ) 2).writeBlock [1, 2]).WF := by
    refine ⟨by decide, by decide, ?_⟩
    intro i hi
    have hi3 : i < 3 := hi
    interval_cases i <;> rfl
  have h := C5_writeBlock_readBlock_roundTrip
    ((DelayLine.mk' 1 (0 : ℚ) 2).writeBlock [1, 2]) hWF [3, 4]
    (by norm_num) (by decide)
  simpa using h

/-- C6 (counterexample): `writeBlock` does not reject a block longer than the
buffer capacity — on a delay line with `bufferSize = 1` a 2-sample write is
silently performed (the buffer content and cursor change; no error path
exists in `writeBlock`), rather than being rejected with an error. -/
theorem C6_writeBlock_oversize_performed :
    ((DelayLine.mk' 0 (0 : ℚ) 1).writeBlock [5, 6]).buffer 0 = 6
      ∧ (DelayLine.mk' 0 (0 : ℚ) 1).buffer 0 = 0
      ∧ ((DelayLine.mk' 0 (0 : ℚ) 1).writeBlock [5, 6]).write = 0 := by
  refine ⟨?_, rfl, rfl⟩
  rfl

/-- C6 (amended): `readSample` and `readBlock` reject `tau` outside `[0, M]`
with an error, and `readBlock` rejects a length exceeding
`bufferSize - tau`; `writeBlock`, however, performs no capacity validation:
any nonempty block — of any length — is written and the cursor advanced. -/
theorem C6_bounds_validation (d : DelayLine ℚ) (tau n : ℤ) (xs : List ℚ) :
    (tau > (d.M : ℤ) ∨ tau < 0 →
      d.readSample tau = .error "Tau exceeds maximum delay")
    ∧ (tau < 0 ∨ tau > (d.M : ℤ) →
      d.readBlock tau n = .error "Tau exceeds maximum delay")
    ∧ (¬(tau < 0 ∨ tau > (d.M : ℤ)) → n ≤ 0 ∨ n > (d.bufferSize : ℤ) - tau →
      d.readBlock tau n = .error "Block size out of bounds")
    ∧ (xs ≠ [] →
      (d.writeBlock xs).write = (d.write + xs.length) % d.bufferSize) := by
  refine ⟨?_, ?_, ?_, ?_⟩
  · intro h
    rw [DelayLine.readSample, if_pos h]
  · intro h
    rw [DelayLine.readBlock, if_pos h]
  · intro h1 h2
    rw [DelayLine.readBlock, if_neg h1, if_pos h2]
  · intro h
    exact DelayLine.writeBlock_write d xs h

theorem C6_bounds_validation_witness :
    (DelayLine.mk' 3 (0 : ℚ) 4).readSample 5
        = .error "Tau exceeds maximum delay"
      ∧ (DelayLine.mk' 3 (0 : ℚ) 4).readBlock (-1) 2
        = .error "Tau exceeds maximum delay"
      ∧ (DelayLine.mk' 3 (0 : ℚ) 4).readBlock 2 6
        = .error "Block size out of bounds"
      ∧ ((DelayLine.mk' 3 (0 : ℚ) 4).writeBlock [1, 2]).write = 2 := by
  have h := C6_bounds_validation (DelayLine.mk' 3 (0 : ℚ) 4) 5 2 [1, 2]
  have h2 := C6_bounds_validation (DelayLine.mk' 3 (0 : ℚ) 4) (-1) 2 [1, 2]
  have h3 := C6_bounds_validation (DelayLine.mk' 3 (0 : ℚ) 4) 2 6 [1, 2]
  refine ⟨h.1 (by left; decide), h2.2.1 (by left; decide),
    h3.2.2.1 (by decide) (by right; decide), ?_⟩
  have h4 := h.2.2.2 (by decide)
  simpa using h4

theorem intToNatLit (n : ℕ) :
    ((no_index (OfNat.ofNat n) : ℤ)).toNat = OfNat.ofNat n := rfl

/-- C1: the claim states that `RRSFilter::process` realises
`y[n] = (1-ε)·y[n-1] + x[n] - (1-ε)^M · x[n-M]`.  The implementation
instead reads `x[n-M-1]` and `y[n-2]`: `readSample()` counts its delay back
from the most recent write, and both reads happen before the current
iteration writes `x[n]`/`y[n]`, adding one extra sample of delay to each
tap.  On the block `[1, 0]` with `M = 2`, `ε = 1/2` (fresh filter, zero
state) the code outputs `[1, 0]`, while the claimed recursion demands
`y[1] = (1-ε)·y[0] + x[1] - (1-ε)^M·x[-1] = 1/2`. -/
theorem C1_rrs_recursion_mismatch :
    ((RRSFilter.mk' 2 ((1 : ℚ)/2) 4).process [1, 0]).map Prod.fst = .ok [1, 0]
      ∧ rrsSpecList 2 ((1 : ℚ)/2) [1, 0] = [1, 1/2]
      ∧ ([1, 0] : List ℚ) ≠ [1, 1/2] := by
  refine ⟨?_, ?_, by norm_num⟩
  · norm_num [RRSFilter.process, RRSFilter.processSample, RRSFilter.mk',
      DelayLine.readSampleMax, DelayLine.readSample, DelayLine.mk',
      DelayLine.writeSample, wrapNeg, Function.update, Except.bind, bind,
      Except.map, pure, Except.pure, intToNatLit]
  · norm_num [rrsSpecList, List.range_succ]

theorem div_sub_self_div (len p : ℕ) (h : 0 < len) (hp : len ≤ p) :
    (p - len) / len = p / len - 1 := by
  obtain ⟨q, r, hr, rfl⟩ : ∃ q r, r < len ∧ p = len * q + r :=
    ⟨p / len, p % len, Nat.mod_lt _ h, by
      have := Nat.div_add_mod p len
      omega⟩
  have hq : q ≠ 0 := by
    rintro rfl
    simp at hp
    omega
  have e1 : len * q + r - len = len * (q - 1) + r := by
    rcases q with _ | q'
    · omega
    · rw [Nat.mul_succ]
      simp
      omega
  rw [e1, Nat.mul_add_div h, Nat.mul_add_div h, Nat.div_eq_of_lt hr]
  omega

/-- Each stage applied twice doubles every value. -/
theorem hadamardStage_stage (len : ℕ) (h : 0 < len) (v : ℕ → ℝ) (p : ℕ) :
    hadamardStage len (hadamardStage len v) p = 2 * v p := by
  have hadd : (p + len) / len = p / len + 1 := Nat.add_div_right _ h
  unfold hadamardStage
  rcases Nat.mod_two_eq_zero_or_one (p / len) with hb | hb
  · rw [if_pos hb, if_pos hb, if_neg (by rw [hadd]; omega),
      Nat.add_sub_cancel]
    ring
  · have hple : len ≤ p := by
      have h1 : 1 ≤ p / len := by
        rcases Nat.eq_zero_or_pos (p / len) with h0 | h0
        · rw [h0] at hb
          simp at hb
        · exact h0
      exact (Nat.one_le_div_iff h).mp h1
    have hsub : (p - len) / len = p / len - 1 := div_sub_self_div len p h hple
    have hsadd : (p - len + len) / len = (p - len) / len + 1 :=
      Nat.add_div_right _ h
    rw [if_neg (by omega), if_pos (by rw [hsub]; omega), if_neg (by omega),
      Nat.sub_add_cancel hple]
    ring

/-- Splitting a natural number around bit positions `s < t`:
`p = a·2^(t+1) + bt·2^t + c·2^(s+1) + bs·2^s + r`. -/
theorem pow_decomp (s t p : ℕ) (hst : s < t) :
    ∃ a bt c bs r, bt < 2 ∧ bs < 2 ∧ c < 2 ^ (t - s - 1) ∧ r < 2 ^ s ∧
      p = a * 2 ^ (t + 1) + bt * 2 ^ t + c * 2 ^ (s + 1) + bs * 2 ^ s + r := by
  have h2t1 : 0 < (2 : ℕ) ^ (t + 1) := Nat.pos_pow_of_pos _ (by norm_num)
  have h2t : 0 < (2 : ℕ) ^ t := Nat.pos_pow_of_pos _ (by norm_num)
  have h2s1 : 0 < (2 : ℕ) ^ (s + 1) := Nat.pos_pow_of_pos _ (by norm_num)
  have h2s : 0 < (2 : ℕ) ^ s := Nat.pos_pow_of_pos _ (by norm_num)
  refine ⟨p / 2 ^ (t + 1), p % 2 ^ (t + 1) / 2 ^ t,
    p % 2 ^ (t + 1) % 2 ^ t / 2 ^ (s + 1),
    p % 2 ^ (t + 1) % 2 ^ t % 2 ^ (s + 1) / 2 ^ s,
    p % 2 ^ (t + 1) % 2 ^ t % 2 ^ (s + 1) % 2 ^ s, ?_, ?_, ?_, ?_, ?_⟩
  · have hm : p % 2 ^ (t + 1) < 2 ^ (t + 1) := Nat.mod_lt _ h2t1
    rw [Nat.div_lt_iff_lt_mul h2t]
    calc p % 2 ^ (t + 1) < 2 ^ (t + 1) := hm
      _ = 2 * 2 ^ t := by ring
  · have hm : p % 2 ^ (t + 1) % 2 ^ t % 2 ^ (s + 1) < 2 ^ (s + 1) :=
      Nat.mod_lt _ h2s1
    rw [Nat.div_lt_iff_lt_mul h2s]
    calc p % 2 ^ (t + 1) % 2 ^ t % 2 ^ (s + 1) < 2 ^ (s + 1) := hm
      _ = 2 * 2 ^ s := by ring
  · have hm : p % 2 ^ (t + 1) % 2 ^ t < 2 ^ t := Nat.mod_lt _ h2t
    rw [Nat.div_lt_iff_lt_mul h2s1]
    calc p % 2 ^ (t + 1) % 2 ^ t < 2 ^ t := hm
      _ = 2 ^ (t - s - 1) * 2 ^ (s + 1) := by
        rw [← pow_add]
        congr 1
        omega
  · exact Nat.mod_lt _ h2s
  · have h1 := Nat.div_add_mod p (2 ^ (t + 1))
    have h2 := Nat.div_add_mod (p % 2 ^ (t + 1)) (2 ^ t)
    have h3 := Nat.div_add_mod (p % 2 ^ (t + 1) % 2 ^ t) (2 ^ (s + 1))
    have h4 := Nat.div_add_mod (p % 2 ^ (t + 1) % 2 ^ t % 2 ^ (s + 1)) (2 ^ s)
    ring_nf at h1 h2 h3 h4 ⊢
    linarith

/-- Bit `s` of the decomposed number is `bs`. -/
theorem bits_low (s t a bt c bs r : ℕ) (hst : s < t) (hbs : bs < 2)
    (hr : r < 2 ^ s) :
    ((a * 2 ^ (t + 1) + bt * 2 ^ t + c * 2 ^ (s + 1) + bs * 2 ^ s + r)
      / 2 ^ s) % 2 = bs := by
  have h2s : 0 < (2 : ℕ) ^ s := Nat.pos_pow_of_pos _ (by norm_num)
  obtain ⟨k, hk⟩ : ∃ k, t = s + 1 + k := ⟨t - s - 1, by omega⟩
  subst hk
  have e : a * 2 ^ (s + 1 + k + 1) + bt * 2 ^ (s + 1 + k) + c * 2 ^ (s + 1)
      + bs * 2 ^ s + r
      = 2 ^ s * (2 * (a * 2 ^ (k + 1) + bt * 2 ^ k + c) + bs) + r := by
    ring
  rw [e, Nat.mul_add_div h2s, Nat.div_eq_of_lt hr, Nat.add_zero,
    Nat.mul_add_mod]
  exact Nat.mod_eq_of_lt hbs

/-- Bit `t` of the decomposed number is `bt`. -/
theorem bits_high (s t a bt c bs r : ℕ) (hst : s < t) (hbt : bt < 2)
    (hbs : bs < 2) (hc : c < 2 ^ (t - s - 1)) (hr : r < 2 ^ s) :
    ((a * 2 ^ (t + 1) + bt * 2 ^ t + c * 2 ^ (s + 1) + bs * 2 ^ s + r)
      / 2 ^ t) % 2 = bt := by
  have h2t : 0 < (2 : ℕ) ^ t := Nat.pos_pow_of_pos _ (by norm_num)
  obtain ⟨k, hk⟩ : ∃ k, t = s + 1 + k := ⟨t - s - 1, by omega⟩
  subst hk
  have hc' : c < 2 ^ k := by
    have : s + 1 + k - s - 1 = k := by omega
    rwa [this] at hc
  have e : a * 2 ^ (s + 1 + k + 1) + bt * 2 ^ (s + 1 + k) + c * 2 ^ (s + 1)
      + bs * 2 ^ s + r
      = 2 ^ (s + 1 + k) * (2 * a + bt) + (c * 2 ^ (s + 1) + bs * 2 ^ s + r) := by
    ring
  have hrem : c * 2 ^ (s + 1) + bs * 2 ^ s + r < 2 ^ (s + 1 + k) := by
    have h1 : c * 2 ^ (s + 1) ≤ (2 ^ k - 1) * 2 ^ (s + 1) :=
      Nat.mul_le_mul_right _ (by omega)
    have h2 : (2 ^ k - 1) * 2 ^ (s + 1) = 2 ^ (s + 1 + k) - 2 ^ (s + 1) := by
      rw [Nat.sub_mul, one_mul]
      congr 1
      ring
    have h3 : bs * 2 ^ s + r < 2 ^ (s + 1) := by
      have h4 : bs * 2 ^ s ≤ 1 * 2 ^ s := Nat.mul_le_mul_right _ (by omega)
      have e2 : (2 : ℕ) ^ (s + 1) = 2 ^ s + 2 ^ s := by ring
      omega
    have h5 : (2 : ℕ) ^ (s + 1) ≤ 2 ^ (s + 1 + k) :=
      Nat.pow_le_pow_right (by norm_num) (by omega)
    omega
  rw [e, Nat.mul_add_div h2t, Nat.div_eq_of_lt hrem, Nat.add_zero,
    Nat.mul_add_mod]
  exact Nat.mod_eq_of_lt hbt

/-- Applying the stage of half-length `2^s` at a decomposed point: the pair
partner is the same point with bit `s` flipped. -/
theorem hadamardStage_low_apply (s t a bt c bs r : ℕ) (hst : s < t)
    (hbs : bs < 2) (hr : r < 2 ^ s) (v : ℕ → ℝ) :
    hadamardStage (2 ^ s) v
        (a * 2 ^ (t + 1) + bt * 2 ^ t + c * 2 ^ (s + 1) + bs * 2 ^ s + r)
      = if bs = 0
        then v (a * 2 ^ (t + 1) + bt * 2 ^ t + c * 2 ^ (s + 1) + 0 * 2 ^ s + r)
          + v (a * 2 ^ (t + 1) + bt * 2 ^ t + c * 2 ^ (s + 1) + 1 * 2 ^ s + r)
        else v (a * 2 ^ (t + 1) + bt * 2 ^ t + c * 2 ^ (s + 1) + 0 * 2 ^ s + r)
          - v (a * 2 ^ (t + 1) + bt * 2 ^ t + c * 2 ^ (s + 1) + 1 * 2 ^ s + r)
      := by
  have hbit := bits_low s t a bt c bs r hst hbs hr
  unfold hadamardStage
  interval_cases bs
  · have e1 : a * 2 ^ (t + 1) + bt * 2 ^ t + c * 2 ^ (s + 1) + 0 * 2 ^ s + r
        + 2 ^ s
        = a * 2 ^ (t + 1) + bt * 2 ^ t + c * 2 ^ (s + 1) + 1 * 2 ^ s + r := by
      ring
    rw [if_pos (by rw [hbit]), if_pos rfl, e1]
  · have e1 : a * 2 ^ (t + 1) + bt * 2 ^ t + c * 2 ^ (s + 1) + 1 * 2 ^ s + r
        - 2 ^ s
        = a * 2 ^ (t + 1) + bt * 2 ^ t + c * 2 ^ (s + 1) + 0 * 2 ^ s + r := by
      have e : a * 2 ^ (t + 1) + bt * 2 ^ t + c * 2 ^ (s + 1) + 1 * 2 ^ s + r
          = (a * 2 ^ (t + 1) + bt * 2 ^ t + c * 2 ^ (s + 1) + 0 * 2 ^ s + r)
            + 2 ^ s := by
        ring
      rw [e, Nat.add_sub_cancel]
    rw [if_neg (by rw [hbit]; norm_num), if_neg (by norm_num), e1]

/-- Applying the stage of half-length `2^t` at a decomposed point: the pair
partner is the same point with bit `t` flipped. -/
theorem hadamardStage_high_apply (s t a bt c bs r : ℕ) (hst : s < t)
    (hbt : bt < 2) (hbs : bs < 2) (hc : c < 2 ^ (t - s - 1)) (hr : r < 2 ^ s)
    (v : ℕ → ℝ) :
    hadamardStage (2 ^ t) v
        (a * 2 ^ (t + 1) + bt * 2 ^ t + c * 2 ^ (s + 1) + bs * 2 ^ s + r)
      = if bt = 0
        then v (a * 2 ^ (t + 1) + 0 * 2 ^ t + c * 2 ^ (s + 1) + bs * 2 ^ s + r)
          + v (a * 2 ^ (t + 1) + 1 * 2 ^ t + c * 2 ^ (s + 1) + bs * 2 ^ s + r)
        else v (a * 2 ^ (t + 1) + 0 * 2 ^ t + c * 2 ^ (s + 1) + bs * 2 ^ s + r)
          - v (a * 2 ^ (t + 1) + 1 * 2 ^ t + c * 2 ^ (s + 1) + bs * 2 ^ s + r)
      := by
  have hbit := bits_high s t a bt c bs r hst hbt hbs hc hr
  unfold hadamardStage
  interval_cases bt
  · have e1 : a * 2 ^ (t + 1) + 0 * 2 ^ t + c * 2 ^ (s + 1) + bs * 2 ^ s + r
        + 2 ^ t
        = a * 2 ^ (t + 1) + 1 * 2 ^ t + c * 2 ^ (s + 1) + bs * 2 ^ s + r := by
      ring
    rw [if_pos (by rw [hbit]), if_pos rfl, e1]
  · have e1 : a * 2 ^ (t + 1) + 1 * 2 ^ t + c * 2 ^ (s + 1) + bs * 2 ^ s + r
        - 2 ^ t
        = a * 2 ^ (t + 1) + 0 * 2 ^ t + c * 2 ^ (s + 1) + bs * 2 ^ s + r := by
      have e : a * 2 ^ (t + 1) + 1 * 2 ^ t + c * 2 ^ (s + 1) + bs * 2 ^ s + r
          = (a * 2 ^ (t + 1) + 0 * 2 ^ t + c * 2 ^ (s + 1) + bs * 2 ^ s + r)
            + 2 ^ t := by
        ring
      rw [e, Nat.add_sub_cancel]
    rw [if_neg (by rw [hbit]; norm_num), if_neg (by norm_num), e1]

/-- Stages acting on distinct bits commute. -/
theorem hadamardStage_comm (s t : ℕ) (hst : s < t) (v : ℕ → ℝ) (p : ℕ) :
    hadamardStage (2 ^ s) (hadamardStage (2 ^ t) v) p
      = hadamardStage (2 ^ t) (hadamardStage (2 ^ s) v) p := by
  obtain ⟨a, bt, c, bs, r, hbt, hbs, hc, hr, rfl⟩ := pow_decomp s t p hst
  rw [hadamardStage_low_apply s t a bt c bs r hst hbs hr,
    hadamardStage_high_apply s t a bt c bs r hst hbt hbs hc hr,
    hadamardStage_high_apply s t a bt c 0 r hst hbt (by norm_num) hc hr,
    hadamardStage_high_apply s t a bt c 1 r hst hbt (by norm_num) hc hr,
    hadamardStage_low_apply s t a 0 c bs r hst hbs hr,
    hadamardStage_low_apply s t a 1 c bs r hst hbs hr]
  interval_cases bs <;> interval_cases bt <;> simp <;> ring

theorem fht_zero (v : ℕ → ℝ) : fht 0 v = v := rfl

theorem fht_succ (k : ℕ) (v : ℕ → ℝ) :
    fht (k + 1) v = hadamardStage (2 ^ k) (fht k v) := by
  unfold fht
  rw [List.range_succ, List.foldl_append]
  rfl

/-- The first `k` stages commute with any later stage. -/
theorem fht_stage_comm (k s : ℕ) (hks : k ≤ s) (v : ℕ → ℝ) :
    fht k (hadamardStage (2 ^ s) v) = hadamardStage (2 ^ s) (fht k v) := by
  induction k generalizing v with
  | zero => rfl
  | succ k ih =>
    rw [fht_succ, fht_succ, ih (by omega)]
    funext p
    exact hadamardStage_comm k s (by omega) (fht k v) p

/-- The unnormalised stage cascade applied twice multiplies by `N = 2^k`. -/
theorem fht_fht (k : ℕ) (v : ℕ → ℝ) (p : ℕ) :
    fht k (fht k v) p = 2 ^ k * v p := by
  induction k generalizing v p with
  | zero => simp [fht_zero]
  | succ k ih =>
    rw [fht_succ, fht_succ, fht_stage_comm k k le_rfl (fht k v),
      hadamardStage_stage (2 ^ k) (Nat.pos_pow_of_pos _ (by norm_num)),
      ih]
    ring

theorem hadamardStage_smul (len : ℕ) (c : ℝ) (v : ℕ → ℝ) :
    hadamardStage len (fun i => c * v i) = fun p => c * hadamardStage len v p := by
  funext p
  unfold hadamardStage
  split_ifs <;> ring

theorem fht_smul (k : ℕ) (c : ℝ) (v : ℕ → ℝ) :
    fht k (fun i => c * v i) = fun p => c * fht k v p := by
  induction k generalizing v with
  | zero => rfl
  | succ k ih =>
    rw [fht_succ, fht_succ, ih, hadamardStage_smul]

theorem two_pow_land_sub_one (k : ℕ) : 2 ^ k &&& (2 ^ k - 1) = 0 := by
  apply Nat.eq_of_testBit_eq
  intro i
  simp only [Nat.testBit_and, Nat.testBit_two_pow, Nat.testBit_two_pow_sub_one,
    Nat.zero_testBit]
  rcases Nat.lt_or_ge i k with h | h
  · simp [Nat.ne_of_gt h]
  · simp [Nat.not_lt.mpr h]

/-- The low bits of a decomposition stay below `2^t`. -/
theorem decomp_low_lt (s t c bs r : ℕ) (hst : s < t) (hbs : bs < 2)
    (hc : c < 2 ^ (t - s - 1)) (hr : r < 2 ^ s) :
    c * 2 ^ (s + 1) + bs * 2 ^ s + r < 2 ^ t := by
  obtain ⟨k, hk⟩ : ∃ k, t = s + 1 + k := ⟨t - s - 1, by omega⟩
  subst hk
  have hc' : c < 2 ^ k := by
    have e : s + 1 + k - s - 1 = k := by omega
    rwa [e] at hc
  have h1 : c * 2 ^ (s + 1) ≤ (2 ^ k - 1) * 2 ^ (s + 1) :=
    Nat.mul_le_mul_right _ (by omega)
  have h2 : (2 ^ k - 1) * 2 ^ (s + 1) = 2 ^ (s + 1 + k) - 2 ^ (s + 1) := by
    rw [Nat.sub_mul, one_mul]
    congr 1
    ring
  have h3 : bs * 2 ^ s + r < 2 ^ (s + 1) := by
    have h4 : bs * 2 ^ s ≤ 1 * 2 ^ s := Nat.mul_le_mul_right _ (by omega)
    have e2 : (2 : ℕ) ^ (s + 1) = 2 ^ s + 2 ^ s := by ring
    omega
  have h5 : (2 : ℕ) ^ (s + 1) ≤ 2 ^ (s + 1 + k) :=
    Nat.pow_le_pow_right (by norm_num) (by omega)
  omega

/-- A stage below the frame boundary only looks at values below the
boundary. -/
theorem hadamardStage_congr_below (s k : ℕ) (hsk : s < k) (v w : ℕ → ℝ)
    (hvw : ∀ i < 2 ^ k, v i = w i) (p : ℕ) (hp : p < 2 ^ k) :
    hadamardStage (2 ^ s) v p = hadamardStage (2 ^ s) w p := by
  obtain ⟨a, bk, c, bs, r, hbk, hbs, hc, hr, rfl⟩ := pow_decomp s k p hsk
  have h2k : (2 : ℕ) ^ k < 2 ^ (k + 1) :=
    Nat.pow_lt_pow_right (by norm_num) (by omega)
  have ha : a = 0 := by
    by_contra ha
    have h1 : 2 ^ (k + 1) ≤ a * 2 ^ (k + 1) :=
      Nat.le_mul_of_pos_left _ (by omega)
    omega
  have hbk0 : bk = 0 := by
    by_contra hbk'
    have hbk1 : bk = 1 := by omega
    subst hbk1
    subst ha
    simp at hp
    omega
  subst ha
  subst hbk0
  have hlt0 : 0 * 2 ^ (k + 1) + 0 * 2 ^ k + c * 2 ^ (s + 1) + 0 * 2 ^ s + r
      < 2 ^ k := by
    simpa using decomp_low_lt s k c 0 r hsk (by norm_num) hc hr
  have hlt1 : 0 * 2 ^ (k + 1) + 0 * 2 ^ k + c * 2 ^ (s + 1) + 1 * 2 ^ s + r
      < 2 ^ k := by
    simpa using decomp_low_lt s k c 1 r hsk (by norm_num) hc hr
  rw [hadamardStage_low_apply s k 0 0 c bs r hsk hbs hr v,
    hadamardStage_low_apply s k 0 0 c bs r hsk hbs hr w,
    hvw _ hlt0, hvw _ hlt1]

/-- The cascade below the frame boundary only looks at values below the
boundary. -/
theorem fht_congr_below (k m : ℕ) (hkm : k ≤ m) (v w : ℕ → ℝ)
    (hvw : ∀ i < 2 ^ m, v i = w i) :
    ∀ p < 2 ^ m, fht k v p = fht k w p := by
  induction k with
  | zero => exact hvw
  | succ k ih =>
    intro p hp
    rw [fht_succ, fht_succ]
    exact hadamardStage_congr_below k m (by omega) _ _
      (fun i hi => ih (by omega) i hi) p hp

/-- One butterfly stage doubles the total energy of any whole number of
`2·len` blocks. -/
theorem hadamardStage_energy (len m : ℕ) (h : 0 < len) (v : ℕ → ℝ) :
    ∑ p ∈ Finset.range (m * (2 * len)), hadamardStage len v p ^ 2
      = 2 * ∑ p ∈ Finset.range (m * (2 * len)), v p ^ 2 := by
  induction m with
  | zero => simp
  | succ m ih =>
    set b := m * (2 * len) with hb
    have e : (m + 1) * (2 * len) = b + (len + len) := by rw [hb]; ring
    have hbit0 : ∀ j, j < len →
        hadamardStage len v (b + j) = v (b + j) + v (b + (len + j)) := by
      intro j hj
      have hdiv : (b + j) / len = 2 * m + j / len := by
        have e1 : b + j = len * (2 * m) + j := by rw [hb]; ring
        rw [e1, Nat.mul_add_div h]
      unfold hadamardStage
      rw [if_pos (by rw [hdiv, Nat.div_eq_of_lt hj]; omega)]
      have e2 : b + j + len = b + (len + j) := by omega
      rw [e2]
    have hbit1 : ∀ j, j < len →
        hadamardStage len v (b + (len + j)) = v (b + j) - v (b + (len + j)) := by
      intro j hj
      have hdiv : (b + (len + j)) / len = 2 * m + 1 + j / len := by
        have e1 : b + (len + j) = len * (2 * m + 1) + j := by rw [hb]; ring
        rw [e1, Nat.mul_add_div h]
      unfold hadamardStage
      rw [if_neg (by rw [hdiv, Nat.div_eq_of_lt hj]; omega)]
      have e2 : b + (len + j) - len = b + j := by omega
      rw [e2]
    have key : ∀ j ∈ Finset.range len,
        hadamardStage len v (b + j) ^ 2 + hadamardStage len v (b + (len + j)) ^ 2
          = 2 * (v (b + j) ^ 2 + v (b + (len + j)) ^ 2) := by
      intro j hj
      rw [hbit0 j (Finset.mem_range.mp hj), hbit1 j (Finset.mem_range.mp hj)]
      ring
    calc ∑ p ∈ Finset.range ((m + 1) * (2 * len)), hadamardStage len v p ^ 2
        = (∑ p ∈ Finset.range b, hadamardStage len v p ^ 2)
          + ((∑ j ∈ Finset.range len, hadamardStage len v (b + j) ^ 2)
            + ∑ j ∈ Finset.range len, hadamardStage len v (b + (len + j)) ^ 2)
          := by
          rw [e, Finset.sum_range_add, Finset.sum_range_add]
      _ = 2 * (∑ p ∈ Finset.range b, v p ^ 2)
          + ∑ j ∈ Finset.range len,
            (hadamardStage len v (b + j) ^ 2
              + hadamardStage len v (b + (len + j)) ^ 2) := by
          rw [ih, ← Finset.sum_add_distrib]
      _ = 2 * (∑ p ∈ Finset.range b, v p ^ 2)
          + ∑ j ∈ Finset.range len,
            2 * (v (b + j) ^ 2 + v (b + (len + j)) ^ 2) := by
          rw [Finset.sum_congr rfl key]
      _ = 2 * ((∑ p ∈ Finset.range b, v p ^ 2)
          + ((∑ j ∈ Finset.range len, v (b + j) ^ 2)
            + ∑ j ∈ Finset.range len, v (b + (len + j)) ^ 2)) := by
          rw [← Finset.mul_sum, Finset.sum_add_distrib]
          ring
      _ = 2 * ∑ p ∈ Finset.range ((m + 1) * (2 * len)), v p ^ 2 := by
          rw [e, Finset.sum_range_add, Finset.sum_range_add]

/-- The full cascade multiplies the energy of any whole number of `2^k`
blocks by `2^k`. -/
theorem fht_energy (k : ℕ) (v : ℕ → ℝ) (m : ℕ) :
    ∑ p ∈ Finset.range (m * 2 ^ k), fht k v p ^ 2
      = 2 ^ k * ∑ p ∈ Finset.range (m * 2 ^ k), v p ^ 2 := by
  induction k generalizing v m with
  | zero => simp [fht_zero]
  | succ k ih =>
    have e : m * 2 ^ (k + 1) = m * (2 * 2 ^ k) := by ring
    rw [e, fht_succ,
      hadamardStage_energy (2 ^ k) m (Nat.pos_pow_of_pos _ (by norm_num))
        (fht k v)]
    have e2 : m * (2 * 2 ^ k) = (2 * m) * 2 ^ k := by ring
    rw [e2, ih]
    ring

theorem list_sum_map_range (f : ℕ → ℝ) (N : ℕ) :
    ((List.range N).map f).sum = ∑ p ∈ Finset.range N, f p := by
  induction N with
  | zero => simp
  | succ n ih =>
    rw [List.range_succ, List.map_append, List.sum_append,
      Finset.sum_range_succ, ih]
    simp

theorem getD_map_range (f : ℕ → ℝ) (N p : ℕ) (hp : p < N) :
    ((List.range N).map f).getD p 0 = f p := by
  have h1 : ((List.range N).map f)[p]? = some (f p) := by
    rw [List.getElem?_map, List.getElem?_range hp]
    rfl
  rw [List.getD_eq_getElem?_getD, h1]
  rfl

theorem hadamardFrame_length (N : ℕ) (frame : List ℝ) :
    (hadamardFrame N frame).length = N := by
  simp [hadamardFrame]

theorem sqrt_inv_sq (k : ℕ) :
    ((Real.sqrt ((2 : ℕ) ^ k : ℕ))⁻¹) ^ 2 = ((2 : ℝ) ^ k)⁻¹ := by
  rw [inv_pow, Real.sq_sqrt (by positivity)]
  norm_num

/-- Energy preservation of one normalised Hadamard frame pass. -/
theorem hadamardFrame_energy (k : ℕ) (frame : List ℝ)
    (h : frame.length = 2 ^ k) :
    ((hadamardFrame frame.length frame).map (fun x => x ^ 2)).sum
      = (frame.map (fun x => x ^ 2)).sum := by
  rw [hadamardFrame, h, Nat.log2_two_pow, List.map_map, list_sum_map_range]
  have step1 : ∀ p : ℕ,
      ((fun x => x ^ 2) ∘ fun p =>
        (Real.sqrt ((2 : ℕ) ^ k : ℕ))⁻¹
          * fht k (fun i => frame.getD i 0) p) p
      = ((2 : ℝ) ^ k)⁻¹ * fht k (fun i => frame.getD i 0) p ^ 2 := by
    intro p
    simp only [Function.comp]
    rw [mul_pow, sqrt_inv_sq]
  rw [Finset.sum_congr rfl (fun p _ => step1 p), ← Finset.mul_sum]
  have e1 : (2 : ℕ) ^ k = 1 * 2 ^ k := (one_mul _).symm
  rw [e1, fht_energy k (fun i => frame.getD i 0) 1, ← e1]
  have e2 : ((2 : ℝ) ^ k)⁻¹ * ((2 : ℝ) ^ k
      * ∑ p ∈ Finset.range (2 ^ k), (frame.getD p 0) ^ 2)
      = ∑ p ∈ Finset.range (2 ^ k), (frame.getD p 0) ^ 2 := by
    rw [← mul_assoc, inv_mul_cancel₀ (by positivity), one_mul]
  rw [e2, ← list_sum_map_range (fun p => (frame.getD p 0) ^ 2) (2 ^ k)]
  have e3 : (List.range (2 ^ k)).map (fun p => (frame.getD p 0) ^ 2)
      = ((List.range (2 ^ k)).map (fun p => frame.getD p 0)).map
        (fun x => x ^ 2) := by
    rw [List.map_map]
    rfl
  rw [e3, ← h, List.map_range_getD]

theorem hadamardFrame_getElem (N : ℕ) (frame : List ℝ) (p : ℕ)
    (hp : p < (hadamardFrame N frame).length) :
    (hadamardFrame N frame)[p]
      = (Real.sqrt N)⁻¹ * fht (Nat.log2 N) (fun i => frame.getD i 0) p := by
  simp [hadamardFrame]

/-- Applying the normalised frame pass twice restores the frame. -/
theorem hadamardFrame_involutive (k : ℕ) (frame : List ℝ)
    (h : frame.length = 2 ^ k) :
    hadamardFrame (2 ^ k) (hadamardFrame frame.length frame) = frame := by
  apply List.ext_getElem
  · rw [hadamardFrame_length, h]
  intro p hp1 hp2
  rw [hadamardFrame_length] at hp1
  rw [hadamardFrame_getElem (2 ^ k) (hadamardFrame frame.length frame) p
    (by rwa [hadamardFrame_length])]
  rw [Nat.log2_two_pow]
  set c : ℝ := (Real.sqrt ((2 : ℕ) ^ k : ℕ))⁻¹ with hc
  set v : ℕ → ℝ := fun i => frame.getD i 0 with hv
  have hinner : ∀ i < 2 ^ k,
      (hadamardFrame frame.length frame).getD i 0 = c * fht k v i := by
    intro i hi
    rw [hadamardFrame, h, Nat.log2_two_pow]
    exact getD_map_range _ _ _ hi
  have hcongr := fht_congr_below k k le_rfl
    (fun i => (hadamardFrame frame.length frame).getD i 0)
    (fun i => c * fht k v i) hinner p hp1
  rw [hcongr, fht_smul]
  show c * (c * fht k (fht k v) p) = frame[p]
  rw [fht_fht]
  have hsq : c * (c * (2 ^ k * v p)) = (c ^ 2 * 2 ^ k) * v p := by ring
  rw [hsq, hc, sqrt_inv_sq, inv_mul_cancel₀ (by positivity), one_mul, hv]
  exact List.getD_eq_getElem frame 0 hp2

/-- C2: for every frame whose length is a power of two, the float-vector
overload of `Hadamard::process` preserves total energy in exact arithmetic,
and applying it twice returns the original frame. -/
theorem C2_hadamard_energy_selfInverse (frame : List ℝ) (k : ℕ)
    (h : frame.length = 2 ^ k) :
    ((Hadamard.processVec frame).map (fun x => x ^ 2)).sum
        = (frame.map (fun x => x ^ 2)).sum
      ∧ Hadamard.processVec (Hadamard.processVec frame) = frame := by
  have hguard : ¬ frame.length &&& (frame.length - 1) ≠ 0 := by
    rw [h, two_pow_land_sub_one]
    simp
  have hpv : Hadamard.processVec frame = hadamardFrame frame.length frame := by
    rw [Hadamard.processVec, if_neg hguard]
  constructor
  · rw [hpv]
    exact hadamardFrame_energy k frame h
  · rw [hpv]
    have hlen2 : (hadamardFrame frame.length frame).length = 2 ^ k := by
      rw [hadamardFrame_length, h]
    have hguard2 : ¬ (hadamardFrame frame.length frame).length
        &&& ((hadamardFrame frame.length frame).length - 1) ≠ 0 := by
      rw [hlen2, two_pow_land_sub_one]
      simp
    rw [Hadamard.processVec, if_neg hguard2, hlen2]
    exact hadamardFrame_involutive k frame h

theorem C2_hadamard_energy_selfInverse_witness :
    ((Hadamard.processVec [1, 2, 3, 4]).map (fun x => x ^ 2)).sum
        = (([1, 2, 3, 4] : List ℝ).map (fun x => x ^ 2)).sum
      ∧ Hadamard.processVec (Hadamard.processVec [1, 2, 3, 4])
        = ([1, 2, 3, 4] : List ℝ) :=
  C2_hadamard_energy_selfInverse [1, 2, 3, 4] 2 (by norm_num)

/-- C7 (counterexample): on a frame of 3 values — not a power of two — the
float-vector overload of `Hadamard::process` does not report any error: it
silently returns and leaves the frame unchanged (`if ((N & (N - 1)) != 0)
return;`), unlike the audio-buffer overload, which throws. -/
theorem C7_vector_overload_no_error :
    Hadamard.processVec [1, 2, 3] = ([1, 2, 3] : List ℝ) := by
  rw [Hadamard.processVec, if_pos (by decide)]

/-- C7 (amended): when the number of values is not a power of two (the code
guard `N & (N - 1) != 0`), the audio-buffer overload throws
`std::invalid_argument`, while the float-vector overload silently returns
the frame unchanged, reporting no error. -/
theorem C7_power_of_two_check (nCh : ℕ) (buf : List (List ℝ))
    (frame : List ℝ) (h1 : nCh &&& (nCh - 1) ≠ 0)
    (h2 : frame.length &&& (frame.length - 1) ≠ 0) :
    Hadamard.processBuffer nCh buf
        = .error "Number of channels must be a power of 2."
      ∧ Hadamard.processVec frame = frame := by
  constructor
  · rw [Hadamard.processBuffer, if_pos h1]
  · rw [Hadamard.processVec, if_pos h2]

theorem C7_power_of_two_check_witness :
    Hadamard.processBuffer 3 [[1, 2, 3]]
        = .error "Number of channels must be a power of 2."
      ∧ Hadamard.processVec [1, 2, 3] = ([1, 2, 3] : List ℝ) :=
  C7_power_of_two_check 3 [[1, 2, 3]] [1, 2, 3] (by decide) (by decide)

theorem list_mapM_ok {β γ : Type} (l : List β) (f : β → Except String γ)
    (res : List γ) (hlen : res.length = l.length)
    (h : ∀ i (hi : i < l.length),
      f (l.get ⟨i, hi⟩) = .ok (res.get ⟨i, by omega⟩)) :
    l.mapM f = .ok res := by
  induction l generalizing res with
  | nil =>
    cases res with
    | nil => rfl
    | cons r rs => simp at hlen
  | cons x xs ih =>
    cases res with
    | nil => simp at hlen
    | cons r rs =>
      have h0 := h 0 (by simp)
      simp only [List.get] at h0
      rw [List.mapM_cons, h0]
      have hrest : xs.mapM f = .ok rs := by
        apply ih rs (by simpa using hlen)
        intro i hi
        have := h (i + 1) (by simpa using Nat.succ_lt_succ hi)
        simpa using this
      rw [hrest]
      rfl

/-- The function `Hadamard::process(std::vector<float>&)` never changes the frame
length. -/
theorem Hadamard.processVec_length (frame : List ℝ) :
    (Hadamard.processVec frame).length = frame.length := by
  rw [Hadamard.processVec]
  split_ifs
  · rfl
  · exact hadamardFrame_length _ _

/-- With every feedback gain equal to zero the filters contribute nothing:
the frame written back is exactly the input frame. -/
theorem FDN.feedback_zero_g (H : List Biquad) (g : List ℝ) (xs ms : List ℝ)
    (hg : ∀ x ∈ g, x = 0) (h1 : g.length = H.length)
    (h2 : xs.length = H.length) (h3 : ms.length = H.length) :
    (FDN.feedback H g xs ms).1 = xs
      ∧ (FDN.feedback H g xs ms).2.length = H.length := by
  induction H generalizing g xs ms with
  | nil =>
    cases g with
    | cons _ _ => simp at h1
    | nil =>
      cases xs with
      | cons _ _ => simp at h2
      | nil =>
        cases ms with
        | cons _ _ => simp at h3
        | nil => exact ⟨rfl, rfl⟩
  | cons hd Hs ih =>
    cases g with
    | nil => simp at h1
    | cons gch gs =>
      cases xs with
      | nil => simp at h2
      | cons x xtl =>
        cases ms with
        | nil => simp at h3
        | cons mx mtl =>
          have hg0 : gch = 0 := hg gch (by simp)
          have ihr := ih gs xtl mtl
            (fun y hy => hg y (by simp [hy]))
            (by simpa using h1) (by simpa using h2) (by simpa using h3)
          rw [FDN.feedback]
          refine ⟨?_, ?_⟩
          · simp [hg0, ihr.1]
          · simp [ihr.2]

/-- Reading a fresh-then-written delay line: the value written `tau` steps
ago, or the initial zero if fewer than `tau + 1` samples were written. -/
theorem DelayLine.readSample_writeSeq_mk' (M mb : ℕ) (g : α) (hmb : 0 < mb)
    (xs : List α) (tau : ℕ) (hτ : tau ≤ M) :
    ((DelayLine.mk' M g mb).writeSeq xs).readSample tau
      = .ok (if tau < xs.length then xs.getD (xs.length - 1 - tau) 0 else 0) := by
  have hWF := DelayLine.WF.mk' M g mb hmb
  rcases Nat.lt_or_ge tau xs.length with hlt | hge
  · rw [DelayLine.readSample_writeSeq _ hWF xs tau (by simp [DelayLine.mk', hτ]) hlt,
      if_pos hlt]
  · rw [DelayLine.readSample_writeSeq_old _ hWF xs tau
      (by simp [DelayLine.mk', hτ]) hge, if_neg (by omega)]
    rw [DelayLine.readSample, if_neg (by push_neg; constructor <;> simp [DelayLine.mk']; omega)]
    rfl

theorem DelayLine.writeSeq_append (d : DelayLine α) (xs ys : List α) :
    d.writeSeq (xs ++ ys) = (d.writeSeq xs).writeSeq ys :=
  List.foldl_append _ _ _ _

/-- With all feedback gains zero, every line of the FDN is a pure delay of
the input: the output of each processed sample is the per-line tap into the
line's write history, and the lines accumulate exactly the input samples. -/
theorem FDN.processSamples_zero_gain (roomSize : ℝ) (Mdl mbs : ℕ → ℕ)
    (frames : List (List ℝ)) :
    ∀ (hist : ℕ → List ℝ) (M : List ℕ) (g : List ℝ)
      (z : List (DelayLine ℝ)) (H : List Biquad),
    (∀ x ∈ g, x = 0) →
    g.length = z.length →
    H.length = z.length →
    M.length = z.length →
    (∀ ch, ch < z.length → 0 < mbs ch) →
    (∀ ch (h : ch < z.length),
      z.get ⟨ch, h⟩ = (DelayLine.mk' (Mdl ch) 0 (mbs ch)).writeSeq (hist ch)) →
    (∀ ch, ch < z.length →
      0 ≤ ⌊(M.getD ch 0 : ℝ) * roomSize⌋
        ∧ (⌊(M.getD ch 0 : ℝ) * roomSize⌋).toNat ≤ Mdl ch) →
    ∃ st2 : FDNState,
      FDN.processSamples roomSize ⟨M, g, z, H⟩ frames
        = .ok ((List.range frames.length).map (fun s =>
            (List.range z.length).map (fun ch =>
              fdnTap roomSize M
                (hist ch ++ ((frames.take s).map (fun f => f.getD ch 0)))
                ch)), st2) := by
  induction frames with
  | nil =>
    intro hist M g z H hg hglen hHlen hMlen hmbs hz htau
    exact ⟨⟨M, g, z, H⟩, rfl⟩
  | cons f rest ih =>
    intro hist M g z H hg hglen hHlen hMlen hmbs hz htau
    have hziplen : (z.zip M).length = z.length := by
      rw [List.length_zip, hMlen, Nat.min_self]
    -- Step 2: the delayed reads succeed and give the per-line taps
    have hreads : (z.zip M).mapM (fun zM =>
        zM.1.readSample ⌊(zM.2 : ℝ) * roomSize⌋)
        = .ok ((List.range z.length).map (fun ch =>
            fdnTap roomSize M (hist ch) ch)) := by
      apply list_mapM_ok _ _ _ (by simp [hziplen])
      intro i hi
      have hiz : i < z.length := by omega
      have hzipget : (z.zip M).get ⟨i, hi⟩
          = (z.get ⟨i, hiz⟩, M.get ⟨i, by omega⟩) := by
        simp [List.get_eq_getElem, List.getElem_zip]
      rw [hzipget]
      have hMget : M.get ⟨i, by omega⟩ = M.getD i 0 :=
        (List.getD_eq_getElem M 0 (by omega)).symm
      have hfloor : (⌊(M.getD i 0 : ℝ) * roomSize⌋ : ℤ)
          = ((⌊(M.getD i 0 : ℝ) * roomSize⌋.toNat : ℕ) : ℤ) :=
        (Int.toNat_of_nonneg (htau i hiz).1).symm
      simp only [hMget]
      rw [hz i hiz, hfloor,
        DelayLine.readSample_writeSeq_mk' (Mdl i) (mbs i) 0 (hmbs i hiz)
          (hist i) _ (htau i hiz).2]
      congr 1
      have hresget : ((List.range z.length).map (fun ch =>
          fdnTap roomSize M (hist ch) ch)).get ⟨i, by simp [hiz]⟩
          = fdnTap roomSize M (hist i) i := by
        simp
      rw [hresget, fdnTap]
    -- abbreviations for the frame step
    set res := (List.range z.length).map (fun ch =>
      fdnTap roomSize M (hist ch) ch) with hres
    set inputFrame := (List.range z.length).map (fun ch => f.getD ch 0)
      with hinput
    set mixed := Hadamard.processVec res with hmixed
    have hreslen : res.length = z.length := by simp [hres]
    have hinlen : inputFrame.length = z.length := by simp [hinput]
    have hmixlen : mixed.length = z.length := by
      rw [hmixed, Hadamard.processVec_length, hreslen]
    have hfb := FDN.feedback_zero_g H g inputFrame mixed hg
      (hglen.trans hHlen.symm) (hinlen.trans hHlen.symm)
      (hmixlen.trans hHlen.symm)
    set z2 := List.zipWith DelayLine.writeSample z inputFrame with hz2def
    have hz2len : z2.length = z.length := by
      rw [hz2def, List.length_zipWith, hinlen, Nat.min_self]
    have hz2 : ∀ ch (h : ch < z2.length),
        z2.get ⟨ch, h⟩ = (DelayLine.mk' (Mdl ch) 0 (mbs ch)).writeSeq
          (hist ch ++ [f.getD ch 0]) := by
      intro ch h
      have hch : ch < z.length := by omega
      have hget : z2.get ⟨ch, h⟩
          = DelayLine.writeSample (z.get ⟨ch, hch⟩)
            (inputFrame.get ⟨ch, by omega⟩) := by
        simp [hz2def, List.get_eq_getElem, List.getElem_zipWith]
      have hinget : inputFrame.get ⟨ch, by omega⟩ = f.getD ch 0 := by
        simp [hinput]
      rw [hget, hinget, hz ch hch, DelayLine.writeSeq_append]
      rfl
    obtain ⟨st2, hrest⟩ := ih (fun ch => hist ch ++ [f.getD ch 0]) M g z2
      (FDN.feedback H g inputFrame mixed).2 hg (by omega)
      (by rw [hfb.2, hHlen, hz2len]) (by omega)
      (fun ch hch => hmbs ch (by omega)) hz2
      (fun ch hch => htau ch (by omega))
    have hpf : FDN.processFrame roomSize ⟨M, g, z, H⟩ f
        = .ok (res, ⟨M, g, z2, (FDN.feedback H g inputFrame mixed).2⟩) := by
      rw [FDN.processFrame]
      simp only [hreads, hmixed, hres, hinput, hz2def, hfb.1, Except.bind,
        Bind.bind, pure, Except.pure]
    refine ⟨st2, ?_⟩
    rw [FDN.processSamples, hpf]
    simp only [Except.bind, Bind.bind]
    rw [hrest]
    simp only [pure, Except.pure]
    congr 1
    congr 1
    rw [List.length_cons, List.range_succ_eq_map, List.map_cons, List.map_map]
    congr 1
    · apply List.map_congr_left
      intro ch hch
      simp [hres]
    · apply List.map_congr_left
      intro s hs
      simp only [Function.comp]
      rw [hz2len]
      apply List.map_congr_left
      intro ch hch
      have e : hist ch ++ List.map (fun fr => fr.getD ch 0)
          (List.take (s + 1) (f :: rest))
          = (hist ch ++ [f.getD ch 0])
            ++ List.map (fun fr => fr.getD ch 0) (List.take s rest) := by
        rw [List.take_succ_cons, List.map_cons, List.append_assoc]
        rfl
      rw [e]

/-- C3 (amended): with all feedback gains 0 and all delay lines freshly
zeroed, each channel of the FDN is a pure delay of its own input: output
sample `s` on channel `ch` is the input sample `s - tau - 1` where
`tau = int(M[ch] * roomSize)` is the line's scaled read index (zero while
`s ≤ tau`).  The first block is therefore NOT identically zero in general:
any channel whose `tau` is smaller than the last sample index — in
particular the dummy line 0 with `tau = 0` — echoes the input. -/
theorem C3_fdn_zero_gain_firstBlock (mkLP : ℝ → ℝ → BiquadCoeffs)
    (roomSize dampening fs : ℝ) (Mdl mbs : ℕ → ℕ)
    (frames : List (List ℝ)) (M : List ℕ) (g : List ℝ)
    (z : List (DelayLine ℝ)) (H : List Biquad)
    (hg : ∀ x ∈ g, x = 0)
    (hglen : g.length = z.length) (hHlen : H.length = z.length)
    (hMlen : M.length = z.length)
    (hmbs : ∀ ch, ch < z.length → 0 < mbs ch)
    (hz : ∀ ch (h : ch < z.length),
      z.get ⟨ch, h⟩ = DelayLine.mk' (Mdl ch) 0 (mbs ch))
    (htau : ∀ ch, ch < z.length →
      0 ≤ ⌊(M.getD ch 0 : ℝ) * roomSize⌋
        ∧ (⌊(M.getD ch 0 : ℝ) * roomSize⌋).toNat ≤ Mdl ch) :
    ∃ st2 : FDNState,
      (FDN.process mkLP ⟨M, g, z, H⟩ frames dampening fs roomSize).2
        = .ok ((List.range frames.length).map (fun s =>
            (List.range z.length).map (fun ch =>
              if (⌊(M.getD ch 0 : ℝ) * roomSize⌋).toNat < s
              then (frames.getD
                (s - 1 - (⌊(M.getD ch 0 : ℝ) * roomSize⌋).toNat) []).getD ch 0
              else 0)), st2) := by
  obtain ⟨st2, h⟩ := FDN.processSamples_zero_gain roomSize Mdl mbs frames
    (fun _ => []) M g z
    ((FDN.updateCoeffs mkLP fs dampening H).1) hg hglen
    (by simpa [FDN.updateCoeffs] using hHlen) hMlen hmbs
    (fun ch hch => by rw [hz ch hch]; rfl) htau
  refine ⟨st2, ?_⟩
  rw [show (FDN.process mkLP ⟨M, g, z, H⟩ frames dampening fs roomSize).2
      = FDN.processSamples roomSize
        ⟨M, g, z, (FDN.updateCoeffs mkLP fs dampening H).1⟩ frames from rfl, h]
  congr 1
  congr 1
  apply List.map_congr_left
  intro s hs
  have hslen : s < frames.length := List.mem_range.mp hs
  apply List.map_congr_left
  intro ch hch
  rw [fdnTap]
  have hxslen : (List.map (fun f => f.getD ch 0) (frames.take s)).length
      = s := by
    rw [List.length_map, List.length_take]
    omega
  rw [List.nil_append, hxslen]
  rcases Nat.lt_or_ge ((⌊(M.getD ch 0 : ℝ) * roomSize⌋).toNat) s with hlt | hge
  · rw [if_pos hlt, if_pos hlt]
    have hj : s - 1 - (⌊(M.getD ch 0 : ℝ) * roomSize⌋).toNat < s := by omega
    have hjf : s - 1 - (⌊(M.getD ch 0 : ℝ) * roomSize⌋).toNat
        < frames.length := by omega
    rw [List.getD_eq_getElem _ _ (by rw [hxslen]; exact hj)]
    rw [List.getElem_map, List.getElem_take]
    rw [List.getD_eq_getElem frames [] hjf]
  · rw [if_neg (by omega), if_neg (by omega)]

theorem C3_fdn_zero_gain_firstBlock_witness :
    ∃ st2 : FDNState,
      (FDN.process mkLP0 fdnSt0 [[1], [5]] 8000 44100 1).2
        = .ok ([[0], [1]], st2) := by
  obtain ⟨st2, h⟩ := C3_fdn_zero_gain_firstBlock mkLP0 1 8000 44100
    (fun _ => 0) (fun _ => 4) [[1], [5]] [0] [0] [DelayLine.mk' 0 0 4]
    [⟨⟨1, 0, 0, 0, 0⟩, 0, 0⟩]
    (by intro x hx; simpa using hx) rfl rfl rfl
    (fun ch _ => by norm_num)
    (by
      intro ch hch
      have hch1 : ch < 1 := by simpa using hch
      interval_cases ch
      rfl)
    (by
      intro ch hch
      have hch1 : ch < 1 := by simpa using hch
      interval_cases ch
      constructor <;> norm_num)
  refine ⟨st2, ?_⟩
  rw [show fdnSt0 = (⟨[0], [0], [DelayLine.mk' 0 0 4],
    [⟨⟨1, 0, 0, 0, 0⟩, 0, 0⟩]⟩ : FDNState) from rfl, h]
  norm_num [List.range_succ]

/-- C3 (counterexample): a zero-gain FDN whose lines hold zeros does not
produce an all-zero first block: with the dummy line 0 (delay 0) and input
frames `[1], [5]`, the first block's output is `[0], [1]` — the input
delayed by one sample — not `[0], [0]`. -/
theorem C3_first_block_not_zero :
    ((FDN.process mkLP0 fdnSt0 [[1], [5]] 8000 44100 1).2).map Prod.fst
        = .ok [[0], [1]]
      ∧ ([[0], [1]] : List (List ℝ)) ≠ [[0], [0]] := by
  constructor
  · obtain ⟨st2, h⟩ := FDN.processSamples_zero_gain 1 (fun _ => 0)
      (fun _ => 4) [[1], [5]] (fun _ => []) [0] [0] [DelayLine.mk' 0 0 4]
      ((FDN.updateCoeffs mkLP0 44100 8000 [⟨⟨1, 0, 0, 0, 0⟩, 0, 0⟩]).1)
      (by intro x hx; simpa using hx) rfl rfl rfl
      (fun ch _ => by norm_num)
      (by
        intro ch hch
        have hch1 : ch < 1 := by simpa using hch
        interval_cases ch
        rfl)
      (by
        intro ch hch
        have hch1 : ch < 1 := by simpa using hch
        interval_cases ch
        constructor <;> norm_num)
    rw [show (FDN.process mkLP0 fdnSt0 [[1], [5]] 8000 44100 1).2
        = FDN.processSamples 1
          ⟨[0], [0], [DelayLine.mk' 0 0 4],
            (FDN.updateCoeffs mkLP0 44100 8000
              [⟨⟨1, 0, 0, 0, 0⟩, 0, 0⟩]).1⟩ [[1], [5]] from rfl, h]
    norm_num [fdnTap, List.range_succ, Except.map]
  · norm_num

/-- C9 (amended): `FDN::process` recomputes the damping low-pass
coefficients unconditionally on every call — once per delay line per block —
regardless of whether the dampening (or sample rate) matches the previous
block's value; the FDN stores no previous-dampening value to compare
against. -/
theorem C9_recompute_every_block (mkLP : ℝ → ℝ → BiquadCoeffs)
    (st : FDNState) (frames : List (List ℝ)) (dampening fs roomSize : ℝ) :
    (FDN.process mkLP st frames dampening fs roomSize).1 = st.H.length :=
  rfl

/-- C9 (counterexample): calling `FDN::process` again with the same
dampening (8000) and sample rate (44100) as the previous block still
performs one coefficient computation per line (here 1), not the 0 the
claim requires when the control value is unchanged. -/
theorem C9_recompute_despite_same_dampening :
    (FDN.process mkLP0 fdnStPrev [[0]] 8000 44100 1).1 = 1
      ∧ (1 : ℕ) ≠ 0 :=
  ⟨rfl, by norm_num⟩

/-- C8: a DVN convolver constructed with `M = 0` pulses is NOT well
defined: the pulse-position vector `k` is empty, so the delay-line sizing
step `*std::max_element(k.begin(), k.end())` dereferences the
end iterator of an empty range (undefined behaviour), and the output
normalisation base `M * (wmax - wmin + 1)` is 0, making the scale
`1 / 0^(19/30) = inf` so that even an all-zero accumulator yields
`0 * inf = NaN`, not 0 (values for `fs = 44100`, `p = 10`:
`Td = 4410`, `wmin = 2205`, `wmax = 4410`). -/
theorem C8_dvn_zero_pulses_ub :
    DVNConvolver.pulses 0 4410 2205 4410 (fun _ => (0, 0, 0)) = []
      ∧ maxElement ((DVNConvolver.pulses 0 4410 2205 4410
          (fun _ => (0, 0, 0))).map (fun pu => pu.1)) = none
      ∧ DVNConvolver.normBase 0 2205 4410 = 0 := by
  refine ⟨rfl, rfl, ?_⟩
  norm_num [DVNConvolver.normBase]

/-- C10: `Reverb::process` does NOT stay within the 2-entry tone-filter
collections for more than 2 channels: already at `numChannels = 3`, and
even with unchanged cutoffs, the filter-application loop accesses index 2
of the 2-element vectors — out of bounds. -/
theorem C10_reverb_filter_index_oob :
    2 ∈ Reverb.toneFilterAccessIndices 3 false false
      ∧ ¬ 2 < Reverb.numToneFilters
      ∧ (∀ i ∈ Reverb.toneFilterAccessIndices 2 true true,
          i < Reverb.numToneFilters) := by
  refine ⟨by decide, by decide, by decide⟩
